import Mathlib

/-!
Shallow embedding of `src/tictactoe.py` (class `State` of the
NoughtsAndCrosses kata): game state, move application, win/draw detection,
board rendering and replay, together with theorems checking the
specification's claims against this code.
-/

namespace TicTacToe

/-- The Python `OrderedDict[int, str]` of moves: an association list in
insertion order.  The dict invariant (each key at most once) holds for every
state the class builds, since `set_move` inserts only fresh keys. -/
abbrev Moves := List (Int × String)

/-- `moves.get(k, d)` on the ordered dict. -/
def movesGetD (m : Moves) (k : Int) (d : String) : String :=
  match m.lookup k with
  | some v => v
  | none => d

/-- `self.moves[next(reversed(self.moves))]`: the value stored under the most
recently inserted key.  Python raises `StopIteration` on an empty dict; the
only call site is guarded by a truthy lookup, so the empty case is never
reached and is embedded as `""`. -/
def lastMover (m : Moves) : String :=
  match m.getLast? with
  | some p => p.2
  | none => ""

/-- The fields of `State` (`__slots__`).  The `tokens` dict is determined by
the two player names and is embedded as the function `State.tokens`; the
`score` dict is embedded as a total function (Python raises `KeyError` for a
key other than the two players; no call site passes one). -/
structure State where
  player1 : String
  player2 : String
  moves : Moves
  score : String → Nat
  turn : String
  winner : Option String

/-- The dict `{' ': ' ', player1: 'X', player2: 'O'}`: a later assignment to
an equal key wins, so lookup tests `player2` first, then `player1`, then
falls through to `' '` (the only remaining key ever passed; any other key
would raise `KeyError` in Python and is embedded as `' '` as well). -/
def State.tokens (s : State) (key : String) : String :=
  if key = s.player2 then "O"
  else if key = s.player1 then "X"
  else " "

/-- `reset()`.  Python draws `random.choice(self.players)` for the new
turn; the draw is passed in here as `newTurn`. -/
def State.reset (s : State) (newTurn : String) : State :=
  { s with moves := [], turn := newTurn, winner := none }

/-- `__init__(player1, player2)` followed by the `reset()` it calls, the
randomly chosen starting turn passed in as `turn0`. -/
def State.init (player1 player2 turn0 : String) : State :=
  State.reset
    { player1 := player1, player2 := player2, moves := [],
      score := fun _ => 0, turn := "", winner := none } turn0

/-- The two exceptions `set_move` can raise: `IllegalMoveException` for a
position outside the board, `DuplicateMoveException` for an occupied cell. -/
inductive MoveError
  | illegalMove
  | duplicateMove
deriving DecidableEq

/-- `set_move(position)`, as (raised exception, state after the call).  Both
raises happen before any assignment, so the state is returned unchanged with
them.  `position not in range(1, 10)` is `¬(1 ≤ p < 10)`; `position in
self.moves` is key membership; insertion appends the fresh key at the end,
and the turn is flipped to the other player. -/
def State.set_move (s : State) (position : Int) : Option MoveError × State :=
  if ¬ (1 ≤ position ∧ position < 10) then (some .illegalMove, s)
  else if (s.moves.lookup position).isSome then (some .duplicateMove, s)
  else
    (none,
      { s with
        moves := s.moves ++ [(position, s.turn)],
        turn := if s.turn = s.player1 then s.player2 else s.player1 })

/-- The `win_lines` list of `finished`, in its scan order: three rows, three
columns, anti-diagonal, diagonal. -/
def winLines : List (Int × Int × Int) :=
  [(1, 2, 3), (4, 5, 6), (7, 8, 9), (1, 4, 7), (2, 5, 8), (3, 6, 9),
   (1, 5, 9), (7, 5, 3)]

/-- The `if` condition of the loop in `finished`: `moves.get(l₀, '')` is
truthy (a non-empty string) and the three lookups are chained-equal. -/
def lineHit (m : Moves) (l : Int × Int × Int) : Bool :=
  let a := movesGetD m l.1 ""
  let b := movesGetD m l.2.1 ""
  let c := movesGetD m l.2.2 ""
  a != "" && a == b && b == c

/-- One iteration of the `for win_line in win_lines` loop of `finished`: on a
hit, the winner is set to the last mover and that player's score is
incremented — unconditionally, on every hit of every call. -/
def finStep (s : State) (l : Int × Int × Int) : State :=
  if lineHit s.moves l then
    let w := lastMover s.moves
    { s with
      winner := some w,
      score := fun p => if p = w then s.score p + 1 else s.score p }
  else s

/-- Python truthiness of `self.winner`: `None` and `''` are falsy. -/
def winnerTruthy : Option String → Bool
  | none => false
  | some w => w != ""

/-- `finished()`, as (return value, state after the call).  `len(self.moves)`
is the number of keys, which under the dict invariant is the list length. -/
def State.finished (s : State) : Bool × State :=
  let s' := winLines.foldl finStep s
  (winnerTruthy s'.winner || s'.moves.length == 9, s')

/-- One iteration of the `for itr in range(1, 10)` loop of `compile_board`;
the accumulator is (board so far, current_line). -/
def boardStep (tok : String → String) (m : Moves)
    (acc : List (List String) × List String) (itr : Int) :
    List (List String) × List String :=
  let cur := acc.2 ++ [tok (movesGetD m itr " ")]
  if itr % 3 == 0 && !cur.isEmpty then (acc.1 ++ [cur], [])
  else (acc.1, cur)

/-- `compile_board(moves=None)`.  `if not moves` treats both `None` and an
empty dict as absent; the loop flushes `current_line` every third cell, and
the trailing `board.append(current_line)` after the loop always appends the
by-then-empty `current_line` as an extra fourth row. -/
def State.compile_board (s : State) (movesArg : Option Moves) :
    List (List String) :=
  let m := match movesArg with
    | none => s.moves
    | some mv => if mv.isEmpty then s.moves else mv
  let r := ([1, 2, 3, 4, 5, 6, 7, 8, 9] : List Int).foldl
    (boardStep s.tokens m) ([], [])
  r.1 ++ [r.2]

/-- The loop of `move_replay`: `current_moves[move] = self.moves[move]`
re-inserts each key of `self.moves` in order, looking its value up in
`self.moves`, and yields `compile_board(current_moves)` after each
insertion. -/
def replayAux (s : State) (cur : Moves) : Moves → List (List (List String))
  | [] => []
  | p :: rest =>
    let cur' := cur ++ [(p.1, movesGetD s.moves p.1 "")]
    s.compile_board (some cur') :: replayAux s cur' rest

/-- `move_replay()`: the generator's yields, materialised in order. -/
def State.move_replay (s : State) : List (List (List String)) :=
  replayAux s [] s.moves

/-- The invariants every state built through `State.init`, `reset` and
`set_move` satisfies: move keys are distinct cells in 1..9, every recorded
mover is one of the two players, and neither player is named `" "` (so the
empty-cell key of the token dict renders only empty cells). -/
def WF (s : State) : Prop :=
  (s.moves.map Prod.fst).Nodup ∧
  (∀ p ∈ s.moves, 1 ≤ p.1 ∧ p.1 ≤ 9 ∧ (p.2 = s.player1 ∨ p.2 = s.player2)) ∧
  s.player1 ≠ " " ∧ s.player2 ≠ " "

/-- A sequence of `set_move` calls, stopping at the first raise: used to
exhibit concrete states as reachable through the class interface. -/
def playMoves (s : State) (ps : List Int) : Option State :=
  match ps with
  | [] => some s
  | p :: rest =>
    match s.set_move p with
    | (none, s') => playMoves s' rest
    | (some _, _) => none

/-- What one pass of the `compile_board` loop produces on the resolved moves
dict `m`: the three rows of the board followed by the leftover empty
`current_line` that the final `board.append` adds. -/
def renderBoard (tok : String → String) (m : Moves) : List (List String) :=
  [[tok (movesGetD m 1 " "), tok (movesGetD m 2 " "), tok (movesGetD m 3 " ")],
   [tok (movesGetD m 4 " "), tok (movesGetD m 5 " "), tok (movesGetD m 6 " ")],
   [tok (movesGetD m 7 " "), tok (movesGetD m 8 " "), tok (movesGetD m 9 " ")],
   []]

theorem compile_board_none (s : State) :
    s.compile_board none = renderBoard s.tokens s.moves := rfl

theorem compile_board_some (s : State) (m : Moves) (hm : m ≠ []) :
    s.compile_board (some m) = renderBoard s.tokens m := by
  cases m with
  | nil => exact absurd rfl hm
  | cons p rest => rfl

theorem compile_board_some_nil (s : State) :
    s.compile_board (some []) = renderBoard s.tokens s.moves := rfl

/-- A game in which player "A" (moving first) has completed the top row
1, 2, 3 with the winning move last: the claims' forced-win example. -/
def forcedWinState : State :=
  { player1 := "A", player2 := "B",
    moves := [(1, "A"), (4, "B"), (2, "A"), (5, "B"), (3, "A")],
    score := fun _ => 0, turn := "B", winner := none }

/-- A game in which "A" completed row 1, 2, 3 but `finished` was not called
until after "B"'s next move at cell 8, so the last recorded move belongs to
"B" while row 1, 2, 3 is the only completed line on the board ("B" holds
cells 4, 6, 8, which complete no line). -/
def lateWinState : State :=
  { player1 := "A", player2 := "B",
    moves := [(1, "A"), (4, "B"), (2, "A"), (6, "B"), (3, "A"), (8, "B")],
    score := fun _ => 0, turn := "A", winner := none }

/-- A full board with no completed line: a draw. -/
def drawState : State :=
  { player1 := "A", player2 := "B",
    moves := [(1, "A"), (2, "B"), (3, "A"), (5, "B"), (4, "A"), (6, "B"),
              (8, "A"), (7, "B"), (9, "A")],
    score := fun _ => 0, turn := "B", winner := none }

theorem range_nine (p : Int) : (1 ≤ p ∧ p ≤ 9) ↔ (1 ≤ p ∧ p < 10) := by omega

/-- C4: `set_move(p)` raises `IllegalMoveException` iff `p ∉ [1, 9]`; for
`p ∈ [1, 9]` it raises `DuplicateMoveException` iff cell `p` is already
filled; otherwise it succeeds and records `(p, current player)` at the end
of the move dict. -/
theorem set_move_case_spec (s : State) (p : Int) :
    ((s.set_move p).1 = some MoveError.illegalMove ↔ ¬ (1 ≤ p ∧ p ≤ 9)) ∧
    ((s.set_move p).1 = some MoveError.duplicateMove ↔
      (1 ≤ p ∧ p ≤ 9) ∧ (s.moves.lookup p).isSome = true) ∧
    ((1 ≤ p ∧ p ≤ 9) → (s.moves.lookup p).isSome = false →
      (s.set_move p).1 = none ∧
        (s.set_move p).2.moves = s.moves ++ [(p, s.turn)]) := by
  rw [range_nine]
  by_cases hr : 1 ≤ p ∧ p < 10 <;>
    by_cases ho : (s.moves.lookup p).isSome = true <;>
      simp [State.set_move, hr, ho]

/-- C7: after a successful `set_move` the turn belongs to the other player
than before the call, and a failed `set_move` leaves the turn unchanged
(given the invariants that the turn is one of the two players and the two
player names differ). -/
theorem set_move_alternates (s : State) (p : Int)
    (hturn : s.turn = s.player1 ∨ s.turn = s.player2)
    (hne : s.player1 ≠ s.player2) :
    ((s.set_move p).1 = none →
      ((s.set_move p).2.turn = s.player1 ∨ (s.set_move p).2.turn = s.player2) ∧
        (s.set_move p).2.turn ≠ s.turn) ∧
    ((s.set_move p).1.isSome = true → (s.set_move p).2.turn = s.turn) := by
  by_cases h1 : 1 ≤ p ∧ p < 10
  · by_cases h2 : (s.moves.lookup p).isSome = true
    · simp [State.set_move, h1, h2]
    · rcases hturn with h | h
      · simp [State.set_move, h1, h2, h, hne, hne.symm]
      · simp [State.set_move, h1, h2, h, hne, hne.symm]
  · simp [State.set_move, h1]

/-- C7 witness: the alternation theorem applied to a fresh game between "A"
and "B" with "A" to move, at position 1. -/
theorem set_move_alternates_witness :
    ((((State.init "A" "B" "A").set_move 1).1 = none →
      ((((State.init "A" "B" "A").set_move 1).2.turn =
          (State.init "A" "B" "A").player1 ∨
        ((State.init "A" "B" "A").set_move 1).2.turn =
          (State.init "A" "B" "A").player2) ∧
        ((State.init "A" "B" "A").set_move 1).2.turn ≠
          (State.init "A" "B" "A").turn)) ∧
    (((State.init "A" "B" "A").set_move 1).1.isSome = true →
      ((State.init "A" "B" "A").set_move 1).2.turn =
        (State.init "A" "B" "A").turn)) :=
  set_move_alternates (State.init "A" "B" "A") 1 (Or.inl rfl) (by decide)

/-- C9: a `set_move` call that raises an exception leaves the whole state
exactly as it was: both raises happen before any mutation. -/
theorem set_move_failure_frame (s : State) (p : Int)
    (h : (s.set_move p).1.isSome = true) : (s.set_move p).2 = s := by
  unfold State.set_move at h ⊢
  split_ifs at h ⊢ <;> first | rfl | simp at h

/-- C9 witness: the atomicity theorem applied to a fresh game and the
out-of-range position 0. -/
theorem set_move_failure_frame_witness :
    ((State.init "A" "B" "A").set_move 0).2 = State.init "A" "B" "A" :=
  set_move_failure_frame (State.init "A" "B" "A") 0 (by decide)

/-- C8: `reset` empties the move dict and clears the winner while leaving
both players' score entries exactly as they were. -/
theorem reset_frame (s : State) (t : String) :
    (s.reset t).moves = [] ∧ (s.reset t).winner = none ∧
    (s.reset t).score s.player1 = s.score s.player1 ∧
    (s.reset t).score s.player2 = s.score s.player2 :=
  ⟨rfl, rfl, rfl, rfl⟩

/-- C3: the claim asks for exactly 3 rows of 3 tokens; `compile_board`
always appends the leftover empty `current_line` after the loop, producing
4 rows with an empty last row — evaluated here on a fresh game and on the
forced-win game. -/
theorem compile_board_trailing_row :
    (State.init "A" "B" "A").compile_board none =
      [[" ", " ", " "], [" ", " ", " "], [" ", " ", " "], []] ∧
    forcedWinState.compile_board none =
      [["X", "X", "X"], ["O", "O", " "], [" ", " ", " "], []] ∧
    ((State.init "A" "B" "A").compile_board none).length = 4 :=
  ⟨by decide, by decide, rfl⟩

/-- C1: `forcedWinState` is reachable by the moves 1, 4, 2, 5, 3 from a
fresh game; one `finished()` call reports the win by "A" and puts "A"'s
score at 1, but a second call increments it again, to 2 — the score is not
incremented exactly once in total over repeated calls. -/
theorem finished_reincrements_score :
    playMoves (State.init "A" "B" "A") [1, 4, 2, 5, 3] = some forcedWinState ∧
    forcedWinState.finished.1 = true ∧
    forcedWinState.finished.2.winner = some "A" ∧
    forcedWinState.finished.2.score "A" = 1 ∧
    forcedWinState.finished.2.finished.2.score "A" = 2 :=
  ⟨rfl, by decide, by decide, by decide, by decide⟩

/-- C2 counterexample: `lateWinState` is reachable by the moves 1, 4, 2, 6,
3, 8 from a fresh game; the line (1, 2, 3) is complete, each of its cells
is owned by "A", and it is the *only* completed line on the board — so no
simultaneous-line tie-break applies — yet `finished` records the last mover
"B", not the completed line's owner, as the winner. -/
theorem finished_winner_cex :
    playMoves (State.init "A" "B" "A") [1, 4, 2, 6, 3, 8] = some lateWinState ∧
    WF lateWinState ∧
    (1, 2, 3) ∈ winLines ∧
    lineHit lateWinState.moves (1, 2, 3) = true ∧
    (∀ l ∈ winLines, lineHit lateWinState.moves l = true → l = (1, 2, 3)) ∧
    movesGetD lateWinState.moves 1 "" = "A" ∧
    movesGetD lateWinState.moves 2 "" = "A" ∧
    movesGetD lateWinState.moves 3 "" = "A" ∧
    lateWinState.finished.1 = true ∧
    lateWinState.finished.2.winner = some "B" ∧
    "B" ≠ "A" :=
  ⟨rfl, by unfold WF; decide, by decide, by decide, by decide, rfl, rfl, rfl,
    by decide, by decide, by decide⟩

theorem finished_def (s : State) :
    s.finished = (winnerTruthy (winLines.foldl finStep s).winner ||
      (winLines.foldl finStep s).moves.length == 9, winLines.foldl finStep s) :=
  rfl

theorem finStep_moves (s : State) (l : Int × Int × Int) :
    (finStep s l).moves = s.moves := by
  unfold finStep
  split_ifs <;> rfl

theorem foldl_finStep_moves (L : List (Int × Int × Int)) (s : State) :
    (L.foldl finStep s).moves = s.moves := by
  induction L generalizing s with
  | nil => rfl
  | cons l L ih => rw [List.foldl_cons, ih, finStep_moves]

theorem finStep_winner_stable (s : State) (l : Int × Int × Int)
    (hw : s.winner = some (lastMover s.moves)) :
    (finStep s l).winner = some (lastMover s.moves) := by
  unfold finStep
  split_ifs
  · rfl
  · exact hw

theorem foldl_finStep_winner_stable (L : List (Int × Int × Int)) (s : State)
    (hw : s.winner = some (lastMover s.moves)) :
    (L.foldl finStep s).winner = some (lastMover s.moves) := by
  induction L generalizing s with
  | nil => exact hw
  | cons l L ih =>
    rw [List.foldl_cons]
    have h1 : (finStep s l).winner = some (lastMover (finStep s l).moves) := by
      rw [finStep_moves]
      exact finStep_winner_stable s l hw
    have h2 := ih (finStep s l) h1
    rwa [finStep_moves] at h2

theorem foldl_finStep_winner_of_hit (L : List (Int × Int × Int)) (s : State)
    (hex : ∃ l ∈ L, lineHit s.moves l = true) :
    (L.foldl finStep s).winner = some (lastMover s.moves) := by
  induction L generalizing s with
  | nil =>
    rcases hex with ⟨l, hl, _⟩
    cases hl
  | cons l L ih =>
    rw [List.foldl_cons]
    by_cases hhit : lineHit s.moves l = true
    · have h1 : (finStep s l).winner = some (lastMover (finStep s l).moves) := by
        rw [finStep_moves]
        unfold finStep
        rw [if_pos hhit]
      have h2 := foldl_finStep_winner_stable L (finStep s l) h1
      rwa [finStep_moves] at h2
    · have hstep : finStep s l = s := by
        unfold finStep
        rw [if_neg hhit]
      rw [hstep]
      apply ih
      rcases hex with ⟨l', hl', hhit'⟩
      rcases List.mem_cons.mp hl' with rfl | hmem
      · exact absurd hhit' hhit
      · exact ⟨l', hmem, hhit'⟩

/-- C2 amended: when `finished` detects a completed winning line, the winner
it records is the player who made the most recently recorded move — which is
the owner of the completed line whenever the winning move is the last move
recorded, as in normal play, but not in general. -/
theorem finished_winner_last_mover (s : State) (l : Int × Int × Int)
    (hl : l ∈ winLines) (hhit : lineHit s.moves l = true) :
    s.finished.2.winner = some (lastMover s.moves) :=
  foldl_finStep_winner_of_hit winLines s ⟨l, hl, hhit⟩

/-- C2 witness: the amended theorem applied to the forced-win game, whose
completed line (1, 2, 3) was completed by the last move. -/
theorem finished_winner_last_mover_witness :
    forcedWinState.finished.2.winner = some (lastMover forcedWinState.moves) :=
  finished_winner_last_mover forcedWinState (1, 2, 3) (by decide) (by decide)

theorem foldl_finStep_no_hit (L : List (Int × Int × Int)) (s : State)
    (h : ∀ l ∈ L, lineHit s.moves l = false) : L.foldl finStep s = s := by
  induction L with
  | nil => rfl
  | cons l L ih =>
    rw [List.foldl_cons]
    have h0 : finStep s l = s := by
      unfold finStep
      simp [h l (List.mem_cons_self l L)]
    rw [h0]
    exact ih fun l' hl' => h l' (List.mem_cons_of_mem l hl')

/-- The nine cells of the board. -/
def allCells : List Int := [1, 2, 3, 4, 5, 6, 7, 8, 9]

theorem mem_allCells (k : Int) (h1 : 1 ≤ k) (h9 : k ≤ 9) : k ∈ allCells := by
  unfold allCells
  simp only [List.mem_cons, List.not_mem_nil, or_false]
  omega

theorem full_board_length (m : Moves)
    (hnd : (m.map Prod.fst).Nodup)
    (hkeys : ∀ p ∈ m, 1 ≤ p.1 ∧ p.1 ≤ 9)
    (hfull : ∀ k ∈ allCells, (m.lookup k).isSome = true) :
    m.length = 9 := by
  have hsub1 : m.map Prod.fst ⊆ allCells := by
    intro k hk
    obtain ⟨p, hp, rfl⟩ := List.mem_map.mp hk
    exact mem_allCells _ (hkeys p hp).1 (hkeys p hp).2
  have hsub2 : allCells ⊆ m.map Prod.fst := by
    intro k hk
    obtain ⟨p, hp, hbeq⟩ := List.lookup_isSome_iff.mp (hfull k hk)
    exact List.mem_map.mpr ⟨p, hp, (eq_of_beq hbeq).symm⟩
  have hfs : (m.map Prod.fst).toFinset = allCells.toFinset := by
    ext k
    simp only [List.mem_toFinset]
    exact ⟨fun h => hsub1 h, fun h => hsub2 h⟩
  have h1 : (m.map Prod.fst).toFinset.card = (m.map Prod.fst).length :=
    List.toFinset_card_of_nodup hnd
  have h2 : allCells.toFinset.card = 9 := by decide
  rw [hfs, h2] at h1
  rw [← List.length_map m Prod.fst, ← h1]

/-- C6: on a full board — nine distinct in-range cells all filled — with no
completed winning line and no winner yet recorded, `finished()` returns
true, the winner stays empty (a draw), and the score map is unchanged. -/
theorem finished_draw (s : State)
    (hnd : (s.moves.map Prod.fst).Nodup)
    (hkeys : ∀ p ∈ s.moves, 1 ≤ p.1 ∧ p.1 ≤ 9)
    (hfull : ∀ k ∈ allCells, (s.moves.lookup k).isSome = true)
    (hnoline : ∀ l ∈ winLines, lineHit s.moves l = false)
    (hw : s.winner = none) :
    s.finished.1 = true ∧ s.finished.2.winner = none ∧
      s.finished.2.score = s.score := by
  have hfold : winLines.foldl finStep s = s := foldl_finStep_no_hit _ s hnoline
  have hlen : s.moves.length = 9 := full_board_length s.moves hnd hkeys hfull
  rw [finished_def, hfold]
  refine ⟨?_, hw, rfl⟩
  rw [hw, hlen]
  rfl

/-- C6 witness: the draw theorem applied to the drawn game reached by the
moves 1, 2, 3, 5, 4, 6, 8, 7, 9. -/
theorem finished_draw_witness :
    drawState.finished.1 = true ∧ drawState.finished.2.winner = none ∧
      drawState.finished.2.score = drawState.score :=
  finished_draw drawState (by decide) (by decide) (by decide) (by decide) rfl

theorem tokens_ne_space (s : State) (w : String)
    (hw : w = s.player1 ∨ w = s.player2) : s.tokens w ≠ " " := by
  unfold State.tokens
  split_ifs with t1 t2
  · decide
  · decide
  · rcases hw with h | h
    · exact absurd h t2
    · exact absurd h t1

theorem tokens_space (s : State) (h1 : s.player1 ≠ " ")
    (h2 : s.player2 ≠ " ") : s.tokens " " = " " := by
  unfold State.tokens
  rw [if_neg fun e => h2 e.symm, if_neg fun e => h1 e.symm]

/-- C10: with at least one recorded move (and the class invariants), passing
an explicitly empty moves dict to `compile_board` renders the full current
board — `if not moves` treats the empty dict exactly like a missing
argument — and the result is not the all-empty grid. -/
theorem compile_board_empty_arg (s : State) (hwf : WF s) (hne : s.moves ≠ []) :
    s.compile_board (some []) = s.compile_board none ∧
      s.compile_board (some []) ≠
        [[" ", " ", " "], [" ", " ", " "], [" ", " ", " "], []] := by
  obtain ⟨hnd, hkeys, hp1, hp2⟩ := hwf
  refine ⟨rfl, ?_⟩
  intro hEq
  rw [compile_board_some_nil] at hEq
  obtain ⟨q, rest, hm⟩ := List.exists_cons_of_ne_nil hne
  obtain ⟨k, v⟩ := q
  have hmem : (k, v) ∈ s.moves := by
    rw [hm]
    exact List.mem_cons_self _ _
  obtain ⟨hk1, hk9, hv⟩ := hkeys _ hmem
  have htokv : s.tokens v ≠ " " := tokens_ne_space s v hv
  have hget : movesGetD s.moves k " " = v := by
    rw [hm]
    unfold movesGetD
    rw [List.lookup_cons_self]
  unfold renderBoard at hEq
  simp only [List.cons.injEq] at hEq
  interval_cases k <;> simp_all

/-- C10 witness: the theorem applied to the forced-win game, which has five
recorded moves. -/
theorem compile_board_empty_arg_witness :
    forcedWinState.compile_board (some []) =
        forcedWinState.compile_board none ∧
      forcedWinState.compile_board (some []) ≠
        [[" ", " ", " "], [" ", " ", " "], [" ", " ", " "], []] :=
  compile_board_empty_arg forcedWinState (by unfold WF; decide) (by decide)

theorem lookup_eq_of_nodup (m : Moves) (k : Int) (v : String)
    (hnd : (m.map Prod.fst).Nodup) (hmem : (k, v) ∈ m) :
    m.lookup k = some v := by
  induction m with
  | nil => cases hmem
  | cons q m ih =>
    obtain ⟨k', v'⟩ := q
    rw [List.lookup_cons]
    simp only [List.map_cons, List.nodup_cons] at hnd
    rcases List.mem_cons.mp hmem with heq | hmem'
    · injection heq with h1 h2
      subst h1
      subst h2
      simp
    · have hk : k ≠ k' := by
        rintro rfl
        exact hnd.1 (List.mem_map.mpr ⟨(k, v), hmem', rfl⟩)
      rw [beq_eq_false_iff_ne.mpr hk]
      exact ih hnd.2 hmem'

theorem replayAux_take (s : State) (pre rest : Moves)
    (hnd : (s.moves.map Prod.fst).Nodup) (hsplit : s.moves = pre ++ rest) :
    replayAux s pre rest = (List.range rest.length).map
      (fun i => s.compile_board (some (pre ++ rest.take (i + 1)))) := by
  induction rest generalizing pre with
  | nil => rfl
  | cons q rest ih =>
    have hmem : (q.1, q.2) ∈ s.moves := by
      rw [hsplit]
      exact List.mem_append_right _ (List.mem_cons_self _ _)
    have hget : movesGetD s.moves q.1 "" = q.2 := by
      unfold movesGetD
      rw [lookup_eq_of_nodup s.moves q.1 q.2 hnd hmem]
    show s.compile_board (some (pre ++ [(q.1, movesGetD s.moves q.1 "")])) ::
        replayAux s (pre ++ [(q.1, movesGetD s.moves q.1 "")]) rest = _
    rw [hget]
    rw [ih (pre ++ [(q.1, q.2)]) (by rw [hsplit]; simp)]
    rw [List.length_cons, List.range_succ_eq_map, List.map_cons, List.map_map]
    refine congrArg₂ List.cons ?_ ?_
    · simp
    · refine List.map_congr_left fun i _ => ?_
      simp [List.append_assoc]

/-- The set of cell indices (0-based, row-major) whose token in a compiled
board differs from the empty-cell token. -/
def filledCells (b : List (List String)) : Finset ℕ :=
  (Finset.range 9).filter fun i => b.flatten.getD i " " ≠ " "

theorem renderBoard_flatten_getD (tok : String → String) (m : Moves) (i : ℕ)
    (hi : i < 9) :
    (renderBoard tok m).flatten.getD i " " =
      tok (movesGetD m ((i : ℤ) + 1) " ") := by
  interval_cases i <;> rfl

theorem filledCells_compile (s : State) (m : Moves) (hm : m ≠ [])
    (hkeys : ∀ p ∈ m, 1 ≤ p.1 ∧ p.1 ≤ 9 ∧ (p.2 = s.player1 ∨ p.2 = s.player2))
    (hp1 : s.player1 ≠ " ") (hp2 : s.player2 ≠ " ") :
    filledCells (s.compile_board (some m)) =
      (m.map fun p => (p.1 - 1).toNat).toFinset := by
  rw [compile_board_some s m hm]
  ext i
  simp only [filledCells, Finset.mem_filter, Finset.mem_range,
    List.mem_toFinset, List.mem_map]
  constructor
  · rintro ⟨hi9, hne⟩
    rw [renderBoard_flatten_getD s.tokens m i hi9] at hne
    cases hl : m.lookup ((i : ℤ) + 1) with
    | none =>
      exfalso
      apply hne
      unfold movesGetD
      rw [hl]
      exact tokens_space s hp1 hp2
    | some v =>
      obtain ⟨l₁, l₂, hsplit, -⟩ := List.lookup_eq_some_iff.mp hl
      have hmem : ((i : ℤ) + 1, v) ∈ m := by
        rw [hsplit]
        exact List.mem_append_right _ (List.mem_cons_self _ _)
      exact ⟨((i : ℤ) + 1, v), hmem, by omega⟩
  · rintro ⟨p, hp, hidx⟩
    obtain ⟨hk1, hk9, -⟩ := hkeys p hp
    have hk : p.1 = (i : ℤ) + 1 := by omega
    have hi9 : i < 9 := by omega
    refine ⟨hi9, ?_⟩
    rw [renderBoard_flatten_getD s.tokens m i hi9]
    cases hl : m.lookup ((i : ℤ) + 1) with
    | none =>
      exfalso
      rw [List.lookup_eq_none_iff] at hl
      have hbad := hl p hp
      rw [hk] at hbad
      simp at hbad
    | some w =>
      obtain ⟨l₁, l₂, hsplit, -⟩ := List.lookup_eq_some_iff.mp hl
      have hmemw : ((i : ℤ) + 1, w) ∈ m := by
        rw [hsplit]
        exact List.mem_append_right _ (List.mem_cons_self _ _)
      obtain ⟨-, -, hvw⟩ := hkeys _ hmemw
      unfold movesGetD
      rw [hl]
      exact tokens_ne_space s w hvw

theorem getD_map_range {α : Type} (f : ℕ → α) (d : α) (n i : ℕ) (hi : i < n) :
    ((List.range n).map f).getD i d = f i := by
  rw [List.getD_eq_getElem?_getD, List.getElem?_map, List.getElem?_range hi]
  rfl

theorem take_idx_ssubset (m : Moves) (i : ℕ)
    (hnd : (m.map Prod.fst).Nodup)
    (hkeys : ∀ p ∈ m, 1 ≤ p.1 ∧ p.1 ≤ 9)
    (hlt : i + 1 < m.length) :
    ((m.take (i + 1)).map fun p => (p.1 - 1).toNat).toFinset ⊂
      ((m.take (i + 2)).map fun p => (p.1 - 1).toNat).toFinset := by
  have hq : m[i + 1]? = some (m.get ⟨i + 1, hlt⟩) := List.getElem?_eq_getElem hlt
  have htake : m.take (i + 2) = m.take (i + 1) ++ [m.get ⟨i + 1, hlt⟩] := by
    rw [List.take_succ, hq]
    rfl
  have hnodup2 : ((m.take (i + 2)).map Prod.fst).Nodup := by
    rw [List.map_take]
    exact List.Nodup.sublist (List.take_sublist _ _) hnd
  have hknot : (m.get ⟨i + 1, hlt⟩).1 ∉ (m.take (i + 1)).map Prod.fst := by
    rw [htake, List.map_append] at hnodup2
    have hd := List.nodup_append.mp hnodup2
    intro hmem
    exact hd.2.2 hmem (by simp)
  have hsub : ((m.take (i + 1)).map fun p => (p.1 - 1).toNat).toFinset ⊆
      ((m.take (i + 2)).map fun p => (p.1 - 1).toNat).toFinset := by
    rw [htake, List.map_append, List.toFinset_append]
    exact Finset.subset_union_left
  rw [Finset.ssubset_iff_of_subset hsub]
  refine ⟨((m.get ⟨i + 1, hlt⟩).1 - 1).toNat, ?_, ?_⟩
  · rw [htake, List.map_append, List.toFinset_append]
    apply Finset.mem_union_right
    simp
  · intro hmem
    rw [List.mem_toFinset, List.mem_map] at hmem
    obtain ⟨p, hp, hpeq⟩ := hmem
    obtain ⟨hp1, hp9⟩ := hkeys p (List.take_subset _ _ hp)
    obtain ⟨hq1, hq9⟩ := hkeys _ (m.get_mem (i + 1) hlt)
    have hpk : p.1 = (m.get ⟨i + 1, hlt⟩).1 := by omega
    exact hknot (hpk ▸ List.mem_map.mpr ⟨p, hp, rfl⟩)

/-- C5: `move_replay` yields exactly one snapshot per recorded move, in play
order; the set of filled cells of each snapshot is a strict superset of the
previous snapshot's; and, when at least one move was made, the final
snapshot equals `compile_board()` with no argument. -/
theorem move_replay_spec (s : State) (hwf : WF s) :
    s.move_replay.length = s.moves.length ∧
    (∀ i : ℕ, i + 1 < s.move_replay.length →
      filledCells (s.move_replay.getD i []) ⊂
        filledCells (s.move_replay.getD (i + 1) [])) ∧
    (s.moves ≠ [] → s.move_replay.getLast? = some (s.compile_board none)) := by
  obtain ⟨hnd, hkeys, hp1, hp2⟩ := hwf
  have hrepl : s.move_replay = (List.range s.moves.length).map
      (fun i => s.compile_board (some (s.moves.take (i + 1)))) := by
    have h0 := replayAux_take s [] s.moves hnd rfl
    simpa [State.move_replay] using h0
  have hlen : s.move_replay.length = s.moves.length := by
    rw [hrepl, List.length_map, List.length_range]
  refine ⟨hlen, ?_, ?_⟩
  · intro i hi
    rw [hlen] at hi
    rw [hrepl,
      getD_map_range (fun j => s.compile_board (some (s.moves.take (j + 1))))
        [] s.moves.length i (by omega),
      getD_map_range (fun j => s.compile_board (some (s.moves.take (j + 1))))
        [] s.moves.length (i + 1) (by omega)]
    have htk1 : s.moves.take (i + 1) ≠ [] := by
      have hl1 : (s.moves.take (i + 1)).length = i + 1 := by
        rw [List.length_take]
        omega
      intro h
      rw [h] at hl1
      simp at hl1
    have htk2 : s.moves.take (i + 1 + 1) ≠ [] := by
      have hl2 : (s.moves.take (i + 1 + 1)).length = i + 1 + 1 := by
        rw [List.length_take]
        omega
      intro h
      rw [h] at hl2
      simp at hl2
    rw [filledCells_compile s _ htk1
        (fun p hp => hkeys p (List.take_subset _ _ hp)) hp1 hp2,
      filledCells_compile s _ htk2
        (fun p hp => hkeys p (List.take_subset _ _ hp)) hp1 hp2]
    exact take_idx_ssubset s.moves i hnd
      (fun p hp => ⟨(hkeys p hp).1, (hkeys p hp).2.1⟩) hi
  · intro hne
    rw [hrepl]
    obtain ⟨k, hk⟩ : ∃ k, s.moves.length = k + 1 :=
      ⟨s.moves.length - 1, by
        have hpos : 0 < s.moves.length := List.length_pos.mpr hne
        omega⟩
    rw [hk, List.range_succ, List.map_append, List.map_singleton,
      List.getLast?_concat]
    congr 1
    rw [← hk, List.take_length, compile_board_some s s.moves hne,
      compile_board_none]

/-- A short three-move game used as a concrete witness. -/
def shortGameState : State :=
  { player1 := "A", player2 := "B",
    moves := [(1, "A"), (5, "B"), (2, "A")],
    score := fun _ => 0, turn := "B", winner := none }

/-- C5 witness: the replay theorem applied to a concrete three-move game. -/
theorem move_replay_spec_witness :
    shortGameState.move_replay.length = shortGameState.moves.length ∧
    (∀ i : ℕ, i + 1 < shortGameState.move_replay.length →
      filledCells (shortGameState.move_replay.getD i []) ⊂
        filledCells (shortGameState.move_replay.getD (i + 1) [])) ∧
    (shortGameState.moves ≠ [] →
      shortGameState.move_replay.getLast? =
        some (shortGameState.compile_board none)) :=
  move_replay_spec shortGameState (by unfold WF; decide)

end TicTacToe
